import Mathlib

set_option linter.unusedSectionVars false

/-!
Verification of the resolution core of wooper.dev (`wooper_dev/actual_logic.py`).

The Python code is shallowly embedded: versions are an abstract linearly
ordered type `V` (the `packaging` library provides a total order on parsed
versions), Python dicts keyed by strings become association lists built with
`dictInsert` (assignment overwrites in place, otherwise appends) or functions
`String → _`, Python sets become deduplicated lists, and the in-place
mutation of `Package._input_name` is made explicit by threading the
candidates map through `select_optimal_packages` and returning its final
state next to the result list.
-/

namespace Wooper

/-- The frozen dataclass `NixpkgsRev`: a commit identifier `rev`, a content
hash and an integer timestamp `date`. -/
structure NixpkgsRev where
  rev : String
  hash : String
  date : Int
  deriving DecidableEq, Repr

/-- Python `NixpkgsRev.__gt__`: comparison by timestamp only. -/
def NixpkgsRev.gtPy (a b : NixpkgsRev) : Bool := decide (b.date < a.date)

/-- Python dataclass `__eq__` on `NixpkgsRev`: frozen dataclasses compare the
tuple of all fields; the custom `__hash__` (which hashes `rev` only) does not
change that. -/
def NixpkgsRev.eqPy (a b : NixpkgsRev) : Bool :=
  decide (a.rev = b.rev) && decide (a.hash = b.hash) && decide (a.date = b.date)

/-- The `Package` dataclass.  `input_name_opt` models the mutable
`_input_name` field (`None` until the assignment step of
`select_optimal_packages` sets it). -/
structure Package (V : Type) where
  name : String
  version : V
  nixpkgs_rev : NixpkgsRev
  input_name_opt : Option String
  deriving DecidableEq

/-- The `input_name` property: the `_input_name` field when it is truthy
(set and non-empty), otherwise `n-<name>`. -/
def Package.inputName {V : Type} (p : Package V) : String :=
  match p.input_name_opt with
  | some s => if s = "" then "n-" ++ p.name else s
  | none => "n-" ++ p.name

/-- A requirement: a package name plus a version-constraint predicate
(the `packaging` specifier, used only by `get_all_candidates`). -/
structure Requirement (V : Type) where
  name : String
  specifier : V → Bool

/-- The `dict[str, list[Package]]` of candidates.  A missing key and a key
mapped to `[]` are identified; the code only indexes the dict at requirement
names after checking non-emptiness, so the two are not distinguishable on any
reachable path. -/
abbrev Candidates (V : Type) := String → List (Package V)

/-- Lookup in an association list: the first entry with the given key. -/
def dictGet {β : Type} : List (String × β) → String → Option β
  | [], _ => none
  | kv :: rest, k => if kv.1 = k then some kv.2 else dictGet rest k

/-- Python dict assignment `d[k] = v`: overwrite in place when the key is
present, append otherwise. -/
def dictInsert {β : Type} (l : List (String × β)) (k : String) (v : β) :
    List (String × β) :=
  if l.any (fun kv => decide (kv.1 = k)) then
    l.map (fun kv => if kv.1 = k then (k, v) else kv)
  else l ++ [(k, v)]

/-- Python `enumerate`, starting from a given index. -/
def enumFromL {α : Type} : Nat → List α → List (Nat × α)
  | _, [] => []
  | i, a :: l => (i, a) :: enumFromL (i + 1) l

/-- Python `enumerate(l)`. -/
def enumL {α : Type} (l : List α) : List (Nat × α) := enumFromL 0 l

variable {V : Type} [LinearOrder V]

/-- One step of Python `max`: keep the current maximum, replace it only on a
strictly greater element. -/
def pyMax2 (m x : V) : V := if m < x then x else m

/-- Python `max` over a list; `none` on the empty list (where Python raises). -/
def listMax : List V → Option V
  | [] => none
  | v :: l => some (l.foldl pyMax2 v)

/-- One step of Python `max(..., key=lambda p: p.nixpkgs_rev.date)` over the
enumerated matching list. -/
def pyMaxDateStep (b y : Nat × Package V) : Nat × Package V :=
  if b.2.nixpkgs_rev.date < y.2.nixpkgs_rev.date then y else b

/-- Python `max(matching, key=lambda p: p.nixpkgs_rev.date)` over the
enumerated matching list: first element with the maximal timestamp. -/
def pyMaxByDate : List (Nat × Package V) → Option (Nat × Package V)
  | [] => none
  | x :: l => some (l.foldl pyMaxDateStep x)

/-- First loop of `select_optimal_packages`: for each requirement in order,
raise `ValueError` when its candidate list is empty, otherwise record the
maximum candidate version under the requirement's name. -/
def computeMaxVersions (candidates : Candidates V) :
    List (Requirement V) → Except String (List (String × V))
  | [] => .ok []
  | req :: rest =>
    match listMax ((candidates req.name).map (·.version)) with
    | none => .error ("Version not found for package " ++ req.name)
    | some m =>
      match computeMaxVersions candidates rest with
      | .error e => .error e
      | .ok mv => .ok ((req.name, m) :: mv)

/-- The maximum version among a name's candidates (what the first loop of
`select_optimal_packages` stores in `max_versions`). -/
def maxVerOf (candidates : Candidates V) (n : String) : Option V :=
  listMax ((candidates n).map (·.version))

/-- The `optimal_revs` entry for a name, computed from the stored
`max_versions` association list: the set of revisions whose candidate row
carries the maximum version. -/
def optimalRevsFor (mv : List (String × V)) (candidates : Candidates V)
    (n : String) : List NixpkgsRev :=
  match dictGet mv n with
  | some m =>
    (((candidates n).filter (fun p => decide (p.version = m))).map
      (·.nixpkgs_rev)).dedup
  | none => []

/-- The coverage set of a name: revisions carrying the maximum candidate
version, expressed directly from the candidates map. -/
def coverageSet (candidates : Candidates V) (n : String) : List NixpkgsRev :=
  match maxVerOf candidates n with
  | some m =>
    (((candidates n).filter (fun p => decide (p.version = m))).map
      (·.nixpkgs_rev)).dedup
  | none => []

/-- `coverage = {name for name in uncovered if rev in optimal_revs[name]}`. -/
def coverageOf (orevs : String → List NixpkgsRev) (uncovered : List String)
    (r : NixpkgsRev) : List String :=
  uncovered.filter (fun n => decide (r ∈ orevs n))

/-- One candidate revision considered inside the scan for the best revision:
replace the best so far on strictly more coverage, or on equal coverage and a
strictly newer timestamp (only when a best exists, as in the Python
condition). -/
def pickStep (orevs : String → List NixpkgsRev) (uncovered : List String)
    (st : Option NixpkgsRev × List String) (r : NixpkgsRev) :
    Option NixpkgsRev × List String :=
  let coverage := coverageOf orevs uncovered r
  match st with
  | (none, bestCov) =>
    if bestCov.length < coverage.length then (some r, coverage)
    else (none, bestCov)
  | (some b, bestCov) =>
    if bestCov.length < coverage.length ∨
        (coverage.length = bestCov.length ∧ b.date < r.date) then
      (some r, coverage)
    else (some b, bestCov)

/-- One iteration body of the greedy set-cover loop: collect every revision
appearing in an uncovered name's coverage set, scan them for the best one,
and return it with its coverage (`none` models the `break` when no revision
was found). -/
def greedyStep (orevs : String → List NixpkgsRev) (uncovered : List String) :
    Option (NixpkgsRev × List String) :=
  match ((uncovered.map orevs).flatten.dedup).foldl
      (pickStep orevs uncovered) (none, []) with
  | (none, _) => none
  | (some r, cov) => some (r, cov)

/-- The `while uncovered:` loop, written with explicit fuel: append the best
revision and drop its coverage from `uncovered`, stopping on empty
`uncovered` or on `break`.  `uncovered.length` fuel is always enough (proved
below), since every selected revision covers at least one uncovered name. -/
def greedyLoop (orevs : String → List NixpkgsRev) :
    Nat → List String → List NixpkgsRev → List NixpkgsRev × List String
  | 0, uncovered, selected => (selected, uncovered)
  | fuel + 1, uncovered, selected =>
    if uncovered.isEmpty then (selected, uncovered)
    else
      match greedyStep orevs uncovered with
      | none => (selected, uncovered)
      | some (r, cov) =>
        greedyLoop orevs fuel
          (uncovered.filter (fun n => decide (n ∉ cov))) (selected ++ [r])

/-- The `rev_to_input` dict: `rev.rev ↦ "nixpkgs-<i>"` in selection order. -/
def revToInputOf (selected : List NixpkgsRev) : List (String × String) :=
  (enumL selected).foldl
    (fun d ir => dictInsert d ir.2.rev ("nixpkgs-" ++ toString ir.1)) []

/-- The final loop of `select_optimal_packages`: for each requirement, filter
its candidates down to those carrying the maximum version in a selected
revision, take the one with the newest timestamp, set its `_input_name` to
the group label of its revision (an in-place mutation, modelled by updating
the candidates map), and append it to the result. -/
def assignLoop (mv : List (String × V)) (selected : List NixpkgsRev)
    (rti : List (String × String)) :
    List (Requirement V) → Candidates V →
    Except String (List (Package V) × Candidates V)
  | [], cand => .ok ([], cand)
  | req :: rest, cand =>
    match dictGet mv req.name with
    | none => .error ("KeyError: " ++ req.name)
    | some m =>
      match pyMaxByDate ((enumL (cand req.name)).filter
        (fun ip => decide (ip.2.version = m ∧ ip.2.nixpkgs_rev ∈ selected))) with
      | none => .error "max() arg is an empty sequence"
      | some (i, p) =>
        match dictGet rti p.nixpkgs_rev.rev with
        | none => .error ("KeyError: " ++ p.nixpkgs_rev.rev)
        | some label =>
          match assignLoop mv selected rti rest (fun n =>
            if n = req.name then
              (cand req.name).set i ⟨p.name, p.version, p.nixpkgs_rev, some label⟩
            else cand n) with
          | .error e => .error e
          | .ok (res, c') =>
            .ok (⟨p.name, p.version, p.nixpkgs_rev, some label⟩ :: res, c')

/-- `select_optimal_packages`.  Errors are the `ValueError` messages Python
raises; the returned pair is the result list together with the final state
of the candidates map (recording the `_input_name` mutations). -/
def select_optimal_packages (requirements : List (Requirement V))
    (candidates : Candidates V) :
    Except String (List (Package V) × Candidates V) :=
  match computeMaxVersions candidates requirements with
  | .error e => .error e
  | .ok mv =>
    let uncovered := (requirements.map (·.name)).dedup
    let selected :=
      (greedyLoop (optimalRevsFor mv candidates) uncovered.length uncovered []).1
    assignLoop mv selected (revToInputOf selected) requirements candidates

/-- The list `selected_revs` produced by the set-cover loop of
`select_optimal_packages`, exposed for specification purposes. -/
def selectedRevsOf (requirements : List (Requirement V))
    (candidates : Candidates V) : Except String (List NixpkgsRev) :=
  match computeMaxVersions candidates requirements with
  | .error e => .error e
  | .ok mv =>
    let uncovered := (requirements.map (·.name)).dedup
    .ok (greedyLoop (optimalRevsFor mv candidates) uncovered.length uncovered []).1

/-- A row of the catalog store, as returned by the join of the `packages` and
`revs` tables (version strings are modelled by their parsed values). -/
structure DbRow (V : Type) where
  package : String
  version : V
  rev : NixpkgsRev

/-- `get_all_candidates` with the database abstracted as the list of its
rows: collect the distinct (package, version) pairs for the requested names,
compute per name the maximum version passing the requirement's specifier,
then keep only the rows carrying such a maximum and group them by name. -/
def get_all_candidates (requirements : List (Requirement V))
    (db : List (DbRow V)) : Candidates V :=
  let names := requirements.map (·.name)
  let req_by_name :=
    requirements.foldl (fun d req => dictInsert d req.name req) []
  let version_rows :=
    ((db.filter (fun r => decide (r.package ∈ names))).map
      (fun r => (r.package, r.version))).dedup
  let max_versions := version_rows.foldl (fun mv pv =>
    match dictGet req_by_name pv.1 with
    | none => mv
    | some req =>
      if req.specifier pv.2 then
        match dictGet mv pv.1 with
        | none => dictInsert mv pv.1 pv.2
        | some cur => if cur < pv.2 then dictInsert mv pv.1 pv.2 else mv
      else mv) []
  if max_versions.isEmpty then fun _ => []
  else
    let rows := db.filter (fun r =>
      max_versions.any (fun pm => decide (pm.1 = r.package ∧ pm.2 = r.version)))
    rows.foldl
      (fun d r => fun n =>
        if n = r.package then d n ++ [⟨r.package, r.version, r.rev, none⟩]
        else d n)
      (fun _ => [])

/-- The resolution pipeline of `packages_from_string` after parsing: fetch
candidates, then select. -/
def resolve (requirements : List (Requirement V)) (db : List (DbRow V)) :
    Except String (List (Package V) × Candidates V) :=
  select_optimal_packages requirements (get_all_candidates requirements db)

/-- Two packages that agree on every field except possibly `_input_name`:
what an in-place `_input_name` assignment preserves. -/
def sameExceptInput (p q : Package V) : Prop :=
  p.name = q.name ∧ p.version = q.version ∧ p.nixpkgs_rev = q.nixpkgs_rev

/-! ### Lemmas about the basic helpers -/

theorem foldl_pyMax2_spec (l : List V) : ∀ v : V,
    (l.foldl pyMax2 v = v ∨ l.foldl pyMax2 v ∈ l) ∧
    v ≤ l.foldl pyMax2 v ∧ ∀ x ∈ l, x ≤ l.foldl pyMax2 v := by
  induction l with
  | nil => intro v; simp
  | cons x l ih =>
    intro v
    simp only [List.foldl_cons]
    by_cases h : v < x
    · have hx : pyMax2 v x = x := by simp [pyMax2, h]
      rw [hx]
      rcases ih x with ⟨hmem, hle, hall⟩
      refine ⟨?_, ?_, ?_⟩
      · rcases hmem with h1 | h1
        · exact Or.inr (by simp [h1])
        · exact Or.inr (List.mem_cons_of_mem _ h1)
      · exact le_trans (le_of_lt h) hle
      · intro y hy
        rcases List.mem_cons.mp hy with rfl | hy
        · exact hle
        · exact hall y hy
    · have hx : pyMax2 v x = v := by simp [pyMax2, h]
      rw [hx]
      rcases ih v with ⟨hmem, hle, hall⟩
      refine ⟨?_, hle, ?_⟩
      · rcases hmem with h1 | h1
        · exact Or.inl h1
        · exact Or.inr (List.mem_cons_of_mem _ h1)
      · intro y hy
        rcases List.mem_cons.mp hy with rfl | hy
        · exact le_trans (le_of_not_lt h) hle
        · exact hall y hy

theorem listMax_spec (l : List V) (m : V) (h : listMax l = some m) :
    m ∈ l ∧ ∀ x ∈ l, x ≤ m := by
  cases l with
  | nil => simp [listMax] at h
  | cons v l =>
    simp only [listMax, Option.some.injEq] at h
    subst h
    rcases foldl_pyMax2_spec l v with ⟨hmem, hle, hall⟩
    refine ⟨?_, ?_⟩
    · rcases hmem with h1 | h1
      · rw [h1]; exact List.mem_cons_self v l
      · exact List.mem_cons_of_mem _ h1
    · intro x hx
      rcases List.mem_cons.mp hx with rfl | hx
      · exact hle
      · exact hall x hx

theorem listMax_isSome (l : List V) (h : l ≠ []) : ∃ m, listMax l = some m := by
  cases l with
  | nil => exact absurd rfl h
  | cons v l => exact ⟨l.foldl pyMax2 v, rfl⟩

theorem foldl_pyMaxDate_spec (l : List (Nat × Package V)) :
    ∀ x : Nat × Package V,
    (l.foldl pyMaxDateStep x = x ∨ l.foldl pyMaxDateStep x ∈ l) ∧
    x.2.nixpkgs_rev.date ≤ (l.foldl pyMaxDateStep x).2.nixpkgs_rev.date ∧
    ∀ y ∈ l, y.2.nixpkgs_rev.date ≤ (l.foldl pyMaxDateStep x).2.nixpkgs_rev.date := by
  induction l with
  | nil => intro x; simp
  | cons z l ih =>
    intro x
    simp only [List.foldl_cons]
    by_cases h : x.2.nixpkgs_rev.date < z.2.nixpkgs_rev.date
    · have hx : pyMaxDateStep x z = z := by simp [pyMaxDateStep, h]
      rw [hx]
      rcases ih z with ⟨hmem, hle, hall⟩
      refine ⟨?_, le_trans (le_of_lt h) hle, ?_⟩
      · rcases hmem with h1 | h1
        · exact Or.inr (by simp [h1])
        · exact Or.inr (List.mem_cons_of_mem _ h1)
      · intro y hy
        rcases List.mem_cons.mp hy with rfl | hy
        · exact hle
        · exact hall y hy
    · have hx : pyMaxDateStep x z = x := by simp [pyMaxDateStep, h]
      rw [hx]
      rcases ih x with ⟨hmem, hle, hall⟩
      refine ⟨?_, hle, ?_⟩
      · rcases hmem with h1 | h1
        · exact Or.inl h1
        · exact Or.inr (List.mem_cons_of_mem _ h1)
      · intro y hy
        rcases List.mem_cons.mp hy with rfl | hy
        · exact le_trans (le_of_not_lt h) hle
        · exact hall y hy

theorem pyMaxByDate_spec (l : List (Nat × Package V)) (x : Nat × Package V)
    (h : pyMaxByDate l = some x) :
    x ∈ l ∧ ∀ y ∈ l, y.2.nixpkgs_rev.date ≤ x.2.nixpkgs_rev.date := by
  cases l with
  | nil => simp [pyMaxByDate] at h
  | cons z l =>
    simp only [pyMaxByDate, Option.some.injEq] at h
    subst h
    rcases foldl_pyMaxDate_spec l z with ⟨hmem, hle, hall⟩
    refine ⟨?_, ?_⟩
    · rcases hmem with h1 | h1
      · rw [h1]; exact List.mem_cons_self z l
      · exact List.mem_cons_of_mem _ h1
    · intro y hy
      rcases List.mem_cons.mp hy with rfl | hy
      · exact hle
      · exact hall y hy

theorem pyMaxByDate_isSome (l : List (Nat × Package V)) (h : l ≠ []) :
    ∃ x, pyMaxByDate l = some x := by
  cases l with
  | nil => exact absurd rfl h
  | cons z l => exact ⟨l.foldl pyMaxDateStep z, rfl⟩

/-! ### Lemmas about the dict and enumerate helpers -/

theorem dictGet_none_of_not_any {β : Type} (d : List (String × β)) (k : String)
    (h : d.any (fun kv => decide (kv.1 = k)) = false) : dictGet d k = none := by
  induction d with
  | nil => rfl
  | cons kv d ih =>
    simp only [List.any_cons, Bool.or_eq_false_iff] at h
    have hk : kv.1 ≠ k := by simpa using h.1
    simp [dictGet, hk, ih h.2]

theorem dictGet_map_overwrite_self {β : Type} (k : String) (v : β) :
    ∀ d : List (String × β), d.any (fun kv => decide (kv.1 = k)) = true →
      dictGet (d.map (fun kv => if kv.1 = k then (k, v) else kv)) k = some v := by
  intro d
  induction d with
  | nil => intro h; simp at h
  | cons kv d ih =>
    intro h
    by_cases hk : kv.1 = k
    · simp [dictGet, hk]
    · simp only [List.any_cons, Bool.or_eq_true] at h
      have htail : d.any (fun kv => decide (kv.1 = k)) = true := by
        rcases h with h | h
        · exact absurd (of_decide_eq_true h) hk
        · exact h
      simp only [List.map_cons, if_neg hk, dictGet, if_neg hk]
      exact ih htail

theorem dictGet_map_overwrite_ne {β : Type} (k k' : String) (v : β)
    (h : k ≠ k') :
    ∀ d : List (String × β),
      dictGet (d.map (fun kv => if kv.1 = k' then (k', v) else kv)) k =
        dictGet d k := by
  intro d
  induction d with
  | nil => rfl
  | cons kv d ih =>
    by_cases hk : kv.1 = k'
    · have h1 : k' ≠ k := fun hh => h hh.symm
      have h2 : kv.1 ≠ k := fun hh => h ((hh.symm.trans hk))
      simp only [List.map_cons, if_pos hk, dictGet, if_neg h1, if_neg h2]
      exact ih
    · simp only [List.map_cons, if_neg hk, dictGet]
      by_cases hkk : kv.1 = k
      · simp [hkk]
      · simp only [if_neg hkk]
        exact ih

theorem dictGet_append_single_self {β : Type} (k : String) (v : β) :
    ∀ d : List (String × β), dictGet d k = none →
      dictGet (d ++ [(k, v)]) k = some v := by
  intro d
  induction d with
  | nil => simp [dictGet]
  | cons kv d ih =>
    intro h
    simp only [dictGet] at h
    by_cases hk : kv.1 = k
    · rw [if_pos hk] at h; exact absurd h (by simp)
    · rw [if_neg hk] at h
      simp only [List.cons_append, dictGet, if_neg hk]
      exact ih h

theorem dictGet_append_single_ne {β : Type} (k k' : String) (v : β)
    (h : k ≠ k') :
    ∀ d : List (String × β), dictGet (d ++ [(k', v)]) k = dictGet d k := by
  intro d
  induction d with
  | nil => simp [dictGet, Ne.symm h]
  | cons kv d ih =>
    simp only [List.cons_append, dictGet]
    by_cases hk : kv.1 = k
    · simp [hk]
    · simp only [if_neg hk]
      exact ih

theorem dictGet_insert_self {β : Type} (d : List (String × β)) (k : String)
    (v : β) : dictGet (dictInsert d k v) k = some v := by
  unfold dictInsert
  by_cases h : d.any (fun kv => decide (kv.1 = k)) = true
  · rw [if_pos h]
    exact dictGet_map_overwrite_self k v d h
  · rw [if_neg h]
    exact dictGet_append_single_self k v d
      (dictGet_none_of_not_any d k (Bool.eq_false_iff.mpr h))

theorem dictGet_insert_ne {β : Type} (d : List (String × β)) (k k' : String)
    (v : β) (h : k ≠ k') : dictGet (dictInsert d k' v) k = dictGet d k := by
  unfold dictInsert
  by_cases hany : d.any (fun kv => decide (kv.1 = k')) = true
  · rw [if_pos hany]
    exact dictGet_map_overwrite_ne k k' v h d
  · rw [if_neg hany]
    exact dictGet_append_single_ne k k' v h d

theorem dictGet_insert_isSome {β : Type} (d : List (String × β))
    (k k' : String) (v : β) (h : (dictGet d k).isSome) :
    (dictGet (dictInsert d k' v) k).isSome := by
  by_cases hk : k = k'
  · subst hk; rw [dictGet_insert_self]; rfl
  · rw [dictGet_insert_ne d k k' v hk]; exact h

theorem enumFromL_mem {α : Type} :
    ∀ (l : List α) (k i : Nat) (a : α), (i, a) ∈ enumFromL k l →
      k ≤ i ∧ l[i - k]? = some a := by
  intro l
  induction l with
  | nil => intro k i a h; simp [enumFromL] at h
  | cons x l ih =>
    intro k i a h
    rcases List.mem_cons.mp h with h1 | h1
    · have hi : i = k := congrArg Prod.fst h1
      have ha : a = x := congrArg Prod.snd h1
      subst hi; subst ha
      simp
    · rcases ih (k + 1) i a h1 with ⟨hk, hget⟩
      refine ⟨le_trans (Nat.le_succ k) hk, ?_⟩
      have : i - k = (i - (k + 1)) + 1 := by omega
      rw [this]
      simpa using hget

theorem enumFromL_mem_snd {α : Type} :
    ∀ (l : List α) (k : Nat) (x : Nat × α), x ∈ enumFromL k l → x.2 ∈ l := by
  intro l
  induction l with
  | nil => intro k x h; simp [enumFromL] at h
  | cons a l ih =>
    intro k x h
    rcases List.mem_cons.mp h with h1 | h1
    · subst h1; simp
    · exact List.mem_cons_of_mem _ (ih (k + 1) x h1)

theorem mem_enumFromL_of_mem {α : Type} :
    ∀ (l : List α) (a : α), a ∈ l → ∀ k, ∃ i, (i, a) ∈ enumFromL k l := by
  intro l
  induction l with
  | nil => intro a h; simp at h
  | cons x l ih =>
    intro a h k
    rcases List.mem_cons.mp h with rfl | h1
    · exact ⟨k, List.mem_cons_self _ _⟩
    · rcases ih a h1 (k + 1) with ⟨i, hi⟩
      exact ⟨i, List.mem_cons_of_mem _ hi⟩

/-! ### Lemmas about `sameExceptInput` -/

theorem sameExceptInput_refl (p : Package V) : sameExceptInput p p :=
  ⟨rfl, rfl, rfl⟩

theorem sameExceptInput_trans {p q r : Package V} (h1 : sameExceptInput p q)
    (h2 : sameExceptInput q r) : sameExceptInput p r :=
  ⟨h1.1.trans h2.1, h1.2.1.trans h2.2.1, h1.2.2.trans h2.2.2⟩

theorem forall₂_sei_refl (l : List (Package V)) :
    List.Forall₂ (sameExceptInput (V := V)) l l := by
  induction l with
  | nil => exact List.Forall₂.nil
  | cons p l ih => exact List.Forall₂.cons (sameExceptInput_refl p) ih

theorem forall₂_sei_trans :
    ∀ {a b c : List (Package V)}, List.Forall₂ (sameExceptInput (V := V)) a b →
      List.Forall₂ (sameExceptInput (V := V)) b c →
      List.Forall₂ (sameExceptInput (V := V)) a c := by
  intro a b c hab
  induction hab generalizing c with
  | nil =>
    intro hbc
    cases hbc
    exact List.Forall₂.nil
  | cons hpq hab ih =>
    intro hbc
    cases hbc with
    | cons hqr hbc => exact List.Forall₂.cons (sameExceptInput_trans hpq hqr) (ih hbc)

theorem forall₂_mem_right {α β : Type} {R : α → β → Prop} :
    ∀ {a : List α} {b : List β}, List.Forall₂ R a b → ∀ q ∈ b, ∃ p ∈ a, R p q := by
  intro a b h
  induction h with
  | nil => intro q hq; simp at hq
  | cons hpq hab ih =>
    intro q hq
    rcases List.mem_cons.mp hq with rfl | hq
    · exact ⟨_, List.mem_cons_self _ _, hpq⟩
    · rcases ih q hq with ⟨p, hp, hr⟩
      exact ⟨p, List.mem_cons_of_mem _ hp, hr⟩

theorem forall₂_mem_left {α β : Type} {R : α → β → Prop} :
    ∀ {a : List α} {b : List β}, List.Forall₂ R a b → ∀ p ∈ a, ∃ q ∈ b, R p q := by
  intro a b h
  induction h with
  | nil => intro p hp; simp at hp
  | cons hpq hab ih =>
    intro p hp
    rcases List.mem_cons.mp hp with rfl | hp
    · exact ⟨_, List.mem_cons_self _ _, hpq⟩
    · rcases ih p hp with ⟨q, hq, hr⟩
      exact ⟨q, List.mem_cons_of_mem _ hq, hr⟩

theorem filterLength_lt_of_mem_not {α : Type} (p : α → Bool) :
    ∀ (l : List α) (a : α), a ∈ l → p a = false →
      (l.filter p).length < l.length := by
  intro l
  induction l with
  | nil => intro a ha; simp at ha
  | cons x l ih =>
    intro a ha hpa
    have hle := List.length_filter_le p l
    rcases List.mem_cons.mp ha with rfl | ha
    · simp only [List.filter_cons, hpa, Bool.false_eq_true, if_false,
        List.length_cons]
      omega
    · have hih := ih a ha hpa
      cases hx : p x
      · simp only [List.filter_cons, hx, Bool.false_eq_true, if_false,
          List.length_cons]
        omega
      · simp only [List.filter_cons, hx, if_true, List.length_cons]
        omega

theorem all_of_filterLength_eq {α : Type} (p : α → Bool) :
    ∀ l : List α, (l.filter p).length = l.length → ∀ a ∈ l, p a = true := by
  intro l
  induction l with
  | nil => intro _ a ha; simp at ha
  | cons x l ih =>
    intro h a ha
    cases hx : p x
    · exfalso
      simp only [List.filter_cons, hx, Bool.false_eq_true, if_false,
        List.length_cons] at h
      have := List.length_filter_le p l
      omega
    · simp only [List.filter_cons, hx, if_true, List.length_cons] at h
      rcases List.mem_cons.mp ha with rfl | ha
      · exact hx
      · exact ih (by omega) a ha

theorem forall₂_sei_set :
    ∀ {a b : List (Package V)} (i : Nat) (p p' : Package V),
      List.Forall₂ (sameExceptInput (V := V)) a b → b[i]? = some p →
      sameExceptInput p p' →
      List.Forall₂ (sameExceptInput (V := V)) a (b.set i p') := by
  intro a b i p p' hab
  induction hab generalizing i with
  | nil => intro hget; simp at hget
  | cons hpq hrest ih =>
    intro hget hsei
    cases i with
    | zero =>
      simp only [List.getElem?_cons_zero, Option.some.injEq] at hget
      subst hget
      exact List.Forall₂.cons (sameExceptInput_trans hpq hsei) hrest
    | succ i =>
      simp only [List.getElem?_cons_succ] at hget
      exact List.Forall₂.cons hpq (ih i hget hsei)

/-! ### The greedy selection scan -/

/-- The invariant on the scan state: the recorded coverage is that of the
recorded best revision. -/
def stOk (orevs : String → List NixpkgsRev) (uncovered : List String) :
    Option NixpkgsRev × List String → Prop
  | (none, cov) => cov = []
  | (some b, cov) => cov = coverageOf orevs uncovered b

/-- Dominance of the scan state over a revision: the revision's coverage
count and timestamp are lexicographically at most the best one's. -/
def domBy (orevs : String → List NixpkgsRev) (uncovered : List String)
    (st : Option NixpkgsRev × List String) (r' : NixpkgsRev) : Prop :=
  match st with
  | (none, _) => (coverageOf orevs uncovered r').length = 0
  | (some b, cov) =>
    (coverageOf orevs uncovered r').length < cov.length ∨
      ((coverageOf orevs uncovered r').length = cov.length ∧ r'.date ≤ b.date)

theorem coverageOf_mem (orevs : String → List NixpkgsRev)
    (uncovered : List String) (r : NixpkgsRev) (n : String) :
    n ∈ coverageOf orevs uncovered r ↔ n ∈ uncovered ∧ r ∈ orevs n := by
  simp [coverageOf, List.mem_filter]

theorem pickStep_stOk (orevs : String → List NixpkgsRev)
    (uncovered : List String) (st : Option NixpkgsRev × List String)
    (r : NixpkgsRev) (h : stOk orevs uncovered st) :
    stOk orevs uncovered (pickStep orevs uncovered st r) := by
  obtain ⟨ob, cov⟩ := st
  cases ob with
  | none =>
    simp only [stOk] at h
    subst h
    simp only [pickStep]
    split
    · simp [stOk]
    · simp [stOk]
  | some b =>
    simp only [stOk] at h
    subst h
    simp only [pickStep]
    split
    · simp [stOk]
    · simp [stOk]

theorem pickStep_dom_mono (orevs : String → List NixpkgsRev)
    (uncovered : List String) (st : Option NixpkgsRev × List String)
    (r r' : NixpkgsRev) (hd : domBy orevs uncovered st r') :
    domBy orevs uncovered (pickStep orevs uncovered st r) r' := by
  obtain ⟨ob, cov⟩ := st
  cases ob with
  | none =>
    simp only [domBy] at hd
    simp only [pickStep]
    split
    · rename_i hc
      simp only [domBy]
      exact Or.inl (by omega)
    · simpa [domBy] using hd
  | some b =>
    simp only [domBy] at hd
    simp only [pickStep]
    split
    · rename_i hc
      simp only [domBy]
      rcases hc with hc | ⟨hc1, hc2⟩
      · rcases hd with hd | ⟨hd1, _⟩
        · exact Or.inl (by omega)
        · exact Or.inl (by omega)
      · rcases hd with hd | ⟨hd1, hd2⟩
        · exact Or.inl (by omega)
        · exact Or.inr ⟨by omega, le_trans hd2 (le_of_lt hc2)⟩
    · simpa [domBy] using hd

theorem pickStep_dom_self (orevs : String → List NixpkgsRev)
    (uncovered : List String) (st : Option NixpkgsRev × List String)
    (r : NixpkgsRev) (h : stOk orevs uncovered st) :
    domBy orevs uncovered (pickStep orevs uncovered st r) r := by
  obtain ⟨ob, cov⟩ := st
  cases ob with
  | none =>
    simp only [stOk] at h
    subst h
    simp only [pickStep]
    split
    · rename_i hc
      exact Or.inr ⟨rfl, le_refl _⟩
    · rename_i hc
      simp only [List.length_nil, Nat.not_lt, Nat.le_zero] at hc
      simpa [domBy] using hc
  | some b =>
    simp only [stOk] at h
    subst h
    simp only [pickStep]
    split
    · exact Or.inr ⟨rfl, le_refl _⟩
    · rename_i hc
      push_neg at hc
      obtain ⟨hc1, hc2⟩ := hc
      simp only [domBy]
      rcases Nat.lt_or_ge (coverageOf orevs uncovered r).length
          (coverageOf orevs uncovered b).length with hlt | hge
      · exact Or.inl hlt
      · have heq : (coverageOf orevs uncovered r).length =
            (coverageOf orevs uncovered b).length := le_antisymm hc1 hge
        exact Or.inr ⟨heq, le_of_not_lt (fun hh => absurd hh (by
          intro hh2
          exact absurd hh2 (by simpa [heq] using hc2 heq)))⟩

theorem pickFold_spec (orevs : String → List NixpkgsRev)
    (uncovered : List String) :
    ∀ (l : List NixpkgsRev) (st : Option NixpkgsRev × List String),
      stOk orevs uncovered st →
      stOk orevs uncovered (l.foldl (pickStep orevs uncovered) st) ∧
      (∀ r', domBy orevs uncovered st r' →
        domBy orevs uncovered (l.foldl (pickStep orevs uncovered) st) r') ∧
      (∀ r' ∈ l, domBy orevs uncovered (l.foldl (pickStep orevs uncovered) st) r') := by
  intro l
  induction l with
  | nil =>
    intro st h
    exact ⟨h, fun r' hd => hd, by simp⟩
  | cons x l ih =>
    intro st h
    simp only [List.foldl_cons]
    have h1 := pickStep_stOk orevs uncovered st x h
    rcases ih (pickStep orevs uncovered st x) h1 with ⟨ha, hb, hc⟩
    refine ⟨ha, ?_, ?_⟩
    · intro r' hd
      exact hb r' (pickStep_dom_mono orevs uncovered st x r' hd)
    · intro r' hr'
      rcases List.mem_cons.mp hr' with rfl | hr'
      · exact hb r' (pickStep_dom_self orevs uncovered st r' h)
      · exact hc r' hr'

theorem pickStep_fst_some (orevs : String → List NixpkgsRev)
    (uncovered : List String) (st : Option NixpkgsRev × List String)
    (x : NixpkgsRev) (b : NixpkgsRev)
    (h : (pickStep orevs uncovered st x).1 = some b) :
    st.1 = some b ∨ b = x := by
  obtain ⟨ob, cov⟩ := st
  cases ob with
  | none =>
    simp only [pickStep] at h
    split at h
    · exact Or.inr (by simpa using h.symm)
    · simp at h
  | some b0 =>
    simp only [pickStep] at h
    split at h
    · exact Or.inr (by simpa using h.symm)
    · exact Or.inl (by simpa using h)

theorem pickFold_fst_mem (orevs : String → List NixpkgsRev)
    (uncovered : List String) :
    ∀ (l : List NixpkgsRev) (st : Option NixpkgsRev × List String)
      (b : NixpkgsRev),
      (l.foldl (pickStep orevs uncovered) st).1 = some b →
      st.1 = some b ∨ b ∈ l := by
  intro l
  induction l with
  | nil => intro st b h; exact Or.inl h
  | cons x l ih =>
    intro st b h
    rcases ih (pickStep orevs uncovered st x) b h with h1 | h1
    · rcases pickStep_fst_some orevs uncovered st x b h1 with h2 | h2
      · exact Or.inl h2
      · exact Or.inr (by simp [h2])
    · exact Or.inr (List.mem_cons_of_mem _ h1)

theorem mem_allRevs_iff (orevs : String → List NixpkgsRev)
    (uncovered : List String) (r : NixpkgsRev) :
    r ∈ (uncovered.map orevs).flatten.dedup ↔ ∃ n ∈ uncovered, r ∈ orevs n := by
  rw [List.mem_dedup, List.mem_flatten]
  constructor
  · rintro ⟨l, hl, hr⟩
    rcases List.mem_map.mp hl with ⟨n, hn, rfl⟩
    exact ⟨n, hn, hr⟩
  · rintro ⟨n, hn, hr⟩
    exact ⟨orevs n, List.mem_map.mpr ⟨n, hn, rfl⟩, hr⟩

theorem greedyStep_spec (orevs : String → List NixpkgsRev)
    (uncovered : List String) (r : NixpkgsRev) (cov : List String)
    (h : greedyStep orevs uncovered = some (r, cov)) :
    cov = coverageOf orevs uncovered r ∧
    (∃ n ∈ uncovered, r ∈ orevs n) ∧
    ∀ r', (∃ n ∈ uncovered, r' ∈ orevs n) →
      ((coverageOf orevs uncovered r').length < cov.length ∨
        ((coverageOf orevs uncovered r').length = cov.length ∧
          r'.date ≤ r.date)) := by
  unfold greedyStep at h
  rcases pickFold_spec orevs uncovered ((uncovered.map orevs).flatten.dedup)
    (none, []) rfl with ⟨hst, _, hall⟩
  cases hres : ((uncovered.map orevs).flatten.dedup).foldl
      (pickStep orevs uncovered) (none, []) with
  | mk ob cov' =>
    rw [hres] at h hst
    cases ob with
    | none => simp at h
    | some b =>
      simp only [Option.some.injEq, Prod.mk.injEq] at h
      obtain ⟨rfl, rfl⟩ := h
      simp only [stOk] at hst
      have hmem : b ∈ (uncovered.map orevs).flatten.dedup := by
        rcases pickFold_fst_mem orevs uncovered _ (none, []) b
          (by rw [hres]) with h2 | h2
        · simp at h2
        · exact h2
      refine ⟨hst, (mem_allRevs_iff orevs uncovered b).mp hmem, ?_⟩
      intro r' hr'
      have hdom := hall r' ((mem_allRevs_iff orevs uncovered r').mpr hr')
      rw [hres] at hdom
      simpa [domBy, hst] using hdom

theorem greedyStep_isSome (orevs : String → List NixpkgsRev)
    (uncovered : List String) (n : String) (r0 : NixpkgsRev)
    (hn : n ∈ uncovered) (h0 : r0 ∈ orevs n) :
    ∃ r cov, greedyStep orevs uncovered = some (r, cov) := by
  unfold greedyStep
  rcases pickFold_spec orevs uncovered ((uncovered.map orevs).flatten.dedup)
    (none, []) rfl with ⟨_, _, hall⟩
  cases hres : ((uncovered.map orevs).flatten.dedup).foldl
      (pickStep orevs uncovered) (none, []) with
  | mk ob cov' =>
    cases ob with
    | none =>
      exfalso
      have hr0 : r0 ∈ (uncovered.map orevs).flatten.dedup :=
        (mem_allRevs_iff orevs uncovered r0).mpr ⟨n, hn, h0⟩
      have := hall r0 hr0
      rw [hres] at this
      simp only [domBy] at this
      have hpos : n ∈ coverageOf orevs uncovered r0 :=
        (coverageOf_mem orevs uncovered r0 n).mpr ⟨hn, h0⟩
      have := List.length_pos_of_mem hpos
      omega
    | some b =>
      exact ⟨b, cov', rfl⟩

theorem greedyLoop_nil (orevs : String → List NixpkgsRev) (fuel : Nat)
    (selected : List NixpkgsRev) :
    greedyLoop orevs fuel [] selected = (selected, []) := by
  cases fuel with
  | zero => rfl
  | succ fuel => simp [greedyLoop]

theorem greedyLoop_spec (orevs : String → List NixpkgsRev) :
    ∀ (fuel : Nat) (uncovered : List String) (selected : List NixpkgsRev),
      (∀ n ∈ uncovered, orevs n ≠ []) → uncovered.length ≤ fuel →
      (greedyLoop orevs fuel uncovered selected).2 = [] ∧
      (greedyLoop orevs fuel uncovered selected).1.length ≤
        selected.length + uncovered.length ∧
      (∀ r ∈ selected, r ∈ (greedyLoop orevs fuel uncovered selected).1) ∧
      (∀ n ∈ uncovered, ∃ r ∈ (greedyLoop orevs fuel uncovered selected).1,
        r ∈ orevs n) := by
  intro fuel
  induction fuel with
  | zero =>
    intro uncovered selected hne hlen
    have huncd : uncovered = [] := List.length_eq_zero.mp (Nat.le_zero.mp hlen)
    subst huncd
    simp [greedyLoop]
  | succ fuel ih =>
    intro uncovered selected hne hlen
    by_cases hemp : uncovered.isEmpty = true
    · have huncd : uncovered = [] := by simpa using hemp
      subst huncd
      simp [greedyLoop]
    · have hul : uncovered ≠ [] := fun hh => hemp (by simp [hh])
      obtain ⟨n0, hn0⟩ := List.exists_mem_of_ne_nil uncovered hul
      obtain ⟨r0, hr0⟩ := List.exists_mem_of_ne_nil (orevs n0) (hne n0 hn0)
      obtain ⟨r, cov, hstep⟩ := greedyStep_isSome orevs uncovered n0 r0 hn0 hr0
      rcases greedyStep_spec orevs uncovered r cov hstep with
        ⟨hcov, ⟨n1, hn1, hrn1⟩, _⟩
      have hn1cov : n1 ∈ cov := by
        rw [hcov]
        exact (coverageOf_mem orevs uncovered r n1).mpr ⟨hn1, hrn1⟩
      have hloop : greedyLoop orevs (fuel + 1) uncovered selected =
          greedyLoop orevs fuel
            (uncovered.filter (fun n => decide (n ∉ cov))) (selected ++ [r]) := by
        simp only [greedyLoop]
        rw [if_neg hemp, hstep]
      have hlt : (uncovered.filter (fun n => decide (n ∉ cov))).length <
          uncovered.length :=
        filterLength_lt_of_mem_not _ uncovered n1 hn1 (by simp [hn1cov])
      have hne' : ∀ n ∈ uncovered.filter (fun n => decide (n ∉ cov)),
          orevs n ≠ [] :=
        fun n hn => hne n (List.mem_filter.mp hn).1
      have hlen' : (uncovered.filter (fun n => decide (n ∉ cov))).length ≤ fuel := by
        omega
      rcases ih (uncovered.filter (fun n => decide (n ∉ cov)))
        (selected ++ [r]) hne' hlen' with ⟨h1, h2, h3, h4⟩
      rw [hloop]
      refine ⟨h1, ?_, ?_, ?_⟩
      · simp only [List.length_append, List.length_singleton] at h2
        omega
      · intro r' hr'
        exact h3 r' (List.mem_append_left _ hr')
      · intro n hn
        by_cases hncov : n ∈ cov
        · have hrn : r ∈ orevs n := by
            rw [hcov] at hncov
            exact ((coverageOf_mem orevs uncovered r n).mp hncov).2
          exact ⟨r, h3 r (List.mem_append_right _ (List.mem_singleton_self r)), hrn⟩
        · have hn' : n ∈ uncovered.filter (fun n => decide (n ∉ cov)) :=
            List.mem_filter.mpr ⟨hn, by simp [hncov]⟩
          exact h4 n hn'

theorem greedyLoop_single (orevs : String → List NixpkgsRev)
    (uncovered : List String) (r0 : NixpkgsRev) (hne : uncovered ≠ [])
    (hall : ∀ n ∈ uncovered, r0 ∈ orevs n) :
    ∃ r, greedyLoop orevs uncovered.length uncovered [] = ([r], []) ∧
      ∀ n ∈ uncovered, r ∈ orevs n := by
  obtain ⟨n0, hn0⟩ := List.exists_mem_of_ne_nil uncovered hne
  obtain ⟨r, cov, hstep⟩ :=
    greedyStep_isSome orevs uncovered n0 r0 hn0 (hall n0 hn0)
  rcases greedyStep_spec orevs uncovered r cov hstep with ⟨hcov, _, hdom⟩
  have hr0cov : coverageOf orevs uncovered r0 = uncovered := by
    unfold coverageOf
    apply List.filter_eq_self.mpr
    intro n hn
    simp [hall n hn]
  have hlen_le : cov.length ≤ uncovered.length := by
    rw [hcov]
    exact List.length_filter_le _ _
  have hdom0 := hdom r0 ⟨n0, hn0, hall n0 hn0⟩
  rw [hr0cov] at hdom0
  have hcovlen : cov.length = uncovered.length := by
    rcases hdom0 with h | ⟨h, _⟩
    · omega
    · omega
  have hallcov : ∀ n ∈ uncovered, n ∈ cov := by
    intro n hn
    rw [hcov] at hcovlen ⊢
    have := all_of_filterLength_eq _ uncovered hcovlen n hn
    exact List.mem_filter.mpr ⟨hn, this⟩
  have hremain : uncovered.filter (fun n => decide (n ∉ cov)) = [] := by
    apply List.filter_eq_nil_iff.mpr
    intro n hn
    simp [hallcov n hn]
  have hrall : ∀ n ∈ uncovered, r ∈ orevs n := by
    intro n hn
    have hmem := hallcov n hn
    rw [hcov] at hmem
    exact ((coverageOf_mem orevs uncovered r n).mp hmem).2
  refine ⟨r, ?_, hrall⟩
  obtain ⟨f, hf⟩ : ∃ f, uncovered.length = f + 1 := by
    cases uncovered with
    | nil => exact absurd rfl hne
    | cons a l => exact ⟨l.length, by simp⟩
  rw [hf]
  have hemp : ¬(uncovered.isEmpty = true) := by
    simpa using hne
  simp only [greedyLoop]
  rw [if_neg hemp, hstep]
  show greedyLoop orevs f (uncovered.filter (fun n => decide (n ∉ cov)))
    ([] ++ [r]) = ([r], [])
  rw [hremain]
  simpa using greedyLoop_nil orevs f [r]

/-! ### The first loop: maximum versions -/

theorem computeMaxVersions_ok (candidates : Candidates V) :
    ∀ reqs : List (Requirement V),
      (∀ req ∈ reqs, candidates req.name ≠ []) →
      ∃ mv, computeMaxVersions candidates reqs = .ok mv := by
  intro reqs
  induction reqs with
  | nil => intro _; exact ⟨[], rfl⟩
  | cons req rest ih =>
    intro h
    have hne : (candidates req.name).map (·.version) ≠ [] := by
      simpa using h req (List.mem_cons_self _ _)
    obtain ⟨m, hm⟩ := listMax_isSome _ hne
    obtain ⟨mv, hmv⟩ := ih (fun q hq => h q (List.mem_cons_of_mem _ hq))
    exact ⟨(req.name, m) :: mv, by simp [computeMaxVersions, hm, hmv]⟩

theorem computeMaxVersions_spec (candidates : Candidates V) :
    ∀ (reqs : List (Requirement V)) (mv : List (String × V)),
      computeMaxVersions candidates reqs = .ok mv →
      mv.map Prod.fst = reqs.map (·.name) ∧
      ∀ e ∈ mv, maxVerOf candidates e.1 = some e.2 := by
  intro reqs
  induction reqs with
  | nil =>
    intro mv h
    simp only [computeMaxVersions, Except.ok.injEq] at h
    subst h
    exact ⟨rfl, by simp⟩
  | cons req rest ih =>
    intro mv h
    simp only [computeMaxVersions] at h
    cases hM : listMax ((candidates req.name).map (·.version)) with
    | none => rw [hM] at h; simp at h
    | some m =>
      rw [hM] at h
      cases hR : computeMaxVersions candidates rest with
      | error e => rw [hR] at h; simp at h
      | ok mv' =>
        rw [hR] at h
        simp only [Except.ok.injEq] at h
        subst h
        rcases ih mv' hR with ⟨h1, h2⟩
        refine ⟨by simp [h1], ?_⟩
        intro e he
        rcases List.mem_cons.mp he with rfl | he
        · exact hM
        · exact h2 e he

theorem dictGet_of_vals {β : Type} (f : String → Option β) :
    ∀ l : List (String × β), (∀ e ∈ l, f e.1 = some e.2) →
      ∀ n, n ∈ l.map Prod.fst → dictGet l n = f n := by
  intro l
  induction l with
  | nil => intro _ n hn; simp at hn
  | cons kv l ih =>
    intro h n hn
    by_cases hk : kv.1 = n
    · simp only [dictGet, if_pos hk]
      rw [← hk]
      exact (h kv (List.mem_cons_self _ _)).symm
    · simp only [dictGet, if_neg hk]
      apply ih (fun e he => h e (List.mem_cons_of_mem _ he))
      rcases List.mem_map.mp hn with ⟨e, he, hne⟩
      rcases List.mem_cons.mp he with rfl | he
      · exact absurd hne hk
      · exact List.mem_map.mpr ⟨e, he, hne⟩

theorem cmv_dictGet (candidates : Candidates V) (reqs : List (Requirement V))
    (mv : List (String × V)) (h : computeMaxVersions candidates reqs = .ok mv)
    (n : String) (hn : n ∈ reqs.map (·.name)) :
    dictGet mv n = maxVerOf candidates n := by
  rcases computeMaxVersions_spec candidates reqs mv h with ⟨h1, h2⟩
  exact dictGet_of_vals (fun n => maxVerOf candidates n) mv h2 n
    (by rw [h1]; exact hn)

/-! ### Coverage sets -/

theorem optimalRevsFor_eq (mv : List (String × V)) (candidates : Candidates V)
    (n : String) (h : dictGet mv n = maxVerOf candidates n) :
    optimalRevsFor mv candidates n = coverageSet candidates n := by
  unfold optimalRevsFor coverageSet
  rw [h]

theorem coverageSet_ne_nil (candidates : Candidates V) (n : String)
    (h : candidates n ≠ []) : coverageSet candidates n ≠ [] := by
  unfold coverageSet maxVerOf
  have hne : (candidates n).map (·.version) ≠ [] := by simpa using h
  obtain ⟨m, hm⟩ := listMax_isSome _ hne
  rw [hm]
  rcases listMax_spec _ m hm with ⟨hmem, _⟩
  rcases List.mem_map.mp hmem with ⟨p, hp, hpv⟩
  show (((candidates n).filter (fun p => decide (p.version = m))).map
    (·.nixpkgs_rev)).dedup ≠ []
  intro hnil
  have hmem2 : p.nixpkgs_rev ∈
      (((candidates n).filter (fun p => decide (p.version = m))).map
        (·.nixpkgs_rev)).dedup := by
    rw [List.mem_dedup]
    exact List.mem_map.mpr ⟨p, List.mem_filter.mpr ⟨hp, by simp [hpv]⟩, rfl⟩
  rw [hnil] at hmem2
  simp at hmem2

theorem mem_coverageSet (candidates : Candidates V) (n : String) (m : V)
    (hm : maxVerOf candidates n = some m) (r : NixpkgsRev) :
    r ∈ coverageSet candidates n ↔
      ∃ q ∈ candidates n, q.version = m ∧ q.nixpkgs_rev = r := by
  unfold coverageSet
  rw [hm, List.mem_dedup]
  constructor
  · intro h
    rcases List.mem_map.mp h with ⟨q, hq, rfl⟩
    rcases List.mem_filter.mp hq with ⟨hq1, hq2⟩
    exact ⟨q, hq1, by simpa using hq2, rfl⟩
  · rintro ⟨q, hq, hv, rfl⟩
    exact List.mem_map.mpr ⟨q, List.mem_filter.mpr ⟨hq, by simp [hv]⟩, rfl⟩

/-! ### The rev-to-input mapping -/

theorem revToInput_fold_pres (k : String) :
    ∀ (l : List (Nat × NixpkgsRev)) (d : List (String × String)),
      (dictGet d k).isSome →
      (dictGet (l.foldl
        (fun d ir => dictInsert d ir.2.rev ("nixpkgs-" ++ toString ir.1)) d)
        k).isSome := by
  intro l
  induction l with
  | nil => intro d h; exact h
  | cons ir l ih =>
    intro d h
    exact ih _ (dictGet_insert_isSome d k ir.2.rev _ h)

theorem revToInput_fold_mem :
    ∀ (l : List (Nat × NixpkgsRev)) (d : List (String × String))
      (ir : Nat × NixpkgsRev), ir ∈ l →
      (dictGet (l.foldl
        (fun d ir => dictInsert d ir.2.rev ("nixpkgs-" ++ toString ir.1)) d)
        ir.2.rev).isSome := by
  intro l
  induction l with
  | nil => intro d ir h; simp at h
  | cons x l ih =>
    intro d ir h
    rcases List.mem_cons.mp h with rfl | h
    · rw [List.foldl_cons]
      apply revToInput_fold_pres
      rw [dictGet_insert_self]
      rfl
    · rw [List.foldl_cons]
      exact ih _ ir h

theorem revToInputOf_isSome (selected : List NixpkgsRev) (r : NixpkgsRev)
    (h : r ∈ selected) : (dictGet (revToInputOf selected) r.rev).isSome := by
  obtain ⟨i, hi⟩ := mem_enumFromL_of_mem selected r h 0
  exact revToInput_fold_mem (enumL selected) [] (i, r) hi

/-! ### The assignment loop -/

/-- What the assignment loop guarantees for the package it appends for a
requirement, stated against the original candidates map `cands0`: the package
carries the maximum candidate version, its revision is a selected revision
carrying that version, the revision is the newest selected one in the
requirement's coverage set, and its `_input_name` is the group label of its
revision. -/
def assignedOk (cands0 : Candidates V) (selected : List NixpkgsRev)
    (rti : List (String × String)) (req : Requirement V) (p : Package V) :
    Prop :=
  ∃ m, maxVerOf cands0 req.name = some m ∧
    p.version = m ∧
    p.nixpkgs_rev ∈ selected ∧
    (∃ q ∈ cands0 req.name, q.version = m ∧ q.nixpkgs_rev = p.nixpkgs_rev) ∧
    (∀ r ∈ selected, r ∈ coverageSet cands0 req.name →
      r.date ≤ p.nixpkgs_rev.date) ∧
    (∃ lab, dictGet rti p.nixpkgs_rev.rev = some lab ∧
      p.input_name_opt = some lab)

theorem assignLoop_spec (mv : List (String × V)) (selected : List NixpkgsRev)
    (rti : List (String × String)) (cands0 : Candidates V) :
    ∀ (reqs : List (Requirement V)) (cand : Candidates V),
      (∀ n, List.Forall₂ (sameExceptInput (V := V)) (cands0 n) (cand n)) →
      (∀ req ∈ reqs, dictGet mv req.name = maxVerOf cands0 req.name) →
      (∀ req ∈ reqs, ∃ r ∈ selected, r ∈ coverageSet cands0 req.name) →
      (∀ req ∈ reqs, cands0 req.name ≠ []) →
      (∀ r ∈ selected, (dictGet rti r.rev).isSome) →
      ∃ res c', assignLoop mv selected rti reqs cand = .ok (res, c') ∧
        (∀ n, List.Forall₂ (sameExceptInput (V := V)) (cands0 n) (c' n)) ∧
        List.Forall₂ (assignedOk cands0 selected rti) reqs res := by
  intro reqs
  induction reqs with
  | nil =>
    intro cand hsim _ _ _ _
    exact ⟨[], cand, rfl, hsim, List.Forall₂.nil⟩
  | cons req rest ih =>
    intro cand hsim hmv hcov hne hrti
    have hreqmem : req ∈ req :: rest := List.mem_cons_self _ _
    have hcne : (cands0 req.name).map (·.version) ≠ [] := by
      simpa using hne req hreqmem
    obtain ⟨m, hm⟩ := listMax_isSome _ hcne
    have hmver : maxVerOf cands0 req.name = some m := hm
    have hget : dictGet mv req.name = some m := (hmv req hreqmem).trans hmver
    obtain ⟨r, hrsel, hrcov⟩ := hcov req hreqmem
    obtain ⟨q, hq, hqv, hqr⟩ :=
      (mem_coverageSet cands0 req.name m hmver r).mp hrcov
    obtain ⟨q', hq', hseiq⟩ := forall₂_mem_left (hsim req.name) q hq
    have hq'v : q'.version = m := by rw [← hseiq.2.1]; exact hqv
    have hq'r : q'.nixpkgs_rev ∈ selected := by
      rw [← hseiq.2.2, hqr]
      exact hrsel
    obtain ⟨j, hj⟩ := mem_enumFromL_of_mem (cand req.name) q' hq' 0
    have hjmatch : (j, q') ∈ (enumL (cand req.name)).filter
        (fun ip => decide (ip.2.version = m ∧ ip.2.nixpkgs_rev ∈ selected)) :=
      List.mem_filter.mpr ⟨hj, by simp [hq'v, hq'r]⟩
    obtain ⟨⟨i, p⟩, hp⟩ :=
      pyMaxByDate_isSome _ (List.ne_nil_of_mem hjmatch)
    obtain ⟨hpmem, hpmax⟩ := pyMaxByDate_spec _ (i, p) hp
    obtain ⟨hpenum, hpdec⟩ := List.mem_filter.mp hpmem
    obtain ⟨hpv, hpsel⟩ : p.version = m ∧ p.nixpkgs_rev ∈ selected := by
      simpa using hpdec
    have hgetp : (cand req.name)[i]? = some p := by
      have := enumFromL_mem (cand req.name) 0 i p hpenum
      simpa using this.2
    obtain ⟨lab, hlabeq⟩ := Option.isSome_iff_exists.mp (hrti _ hpsel)
    have hsim' : ∀ n, List.Forall₂ (sameExceptInput (V := V)) (cands0 n)
        ((fun n => if n = req.name then
          (cand req.name).set i ⟨p.name, p.version, p.nixpkgs_rev, some lab⟩
        else cand n) n) := by
      intro n
      by_cases hn : n = req.name
      · subst hn
        simp only [if_pos rfl]
        exact forall₂_sei_set i p _ (hsim req.name) hgetp ⟨rfl, rfl, rfl⟩
      · simp only [if_neg hn]
        exact hsim n
    obtain ⟨res, c', heq, hsim2, hfa⟩ := ih
      (fun n => if n = req.name then
        (cand req.name).set i ⟨p.name, p.version, p.nixpkgs_rev, some lab⟩
      else cand n)
      hsim'
      (fun x hx => hmv x (List.mem_cons_of_mem _ hx))
      (fun x hx => hcov x (List.mem_cons_of_mem _ hx))
      (fun x hx => hne x (List.mem_cons_of_mem _ hx))
      hrti
    have hpcand : p ∈ cand req.name := enumFromL_mem_snd _ 0 (i, p) hpenum
    obtain ⟨q0, hq0, hsei0⟩ := forall₂_mem_right (hsim req.name) p hpcand
    have hok : assignedOk cands0 selected rti req
        ⟨p.name, p.version, p.nixpkgs_rev, some lab⟩ := by
      refine ⟨m, hmver, hpv, hpsel, ?_, ?_, lab, hlabeq, rfl⟩
      · exact ⟨q0, hq0, hsei0.2.1.trans hpv, hsei0.2.2⟩
      · intro r2 hr2sel hr2cov
        obtain ⟨q2, hq2, hq2v, hq2r⟩ :=
          (mem_coverageSet cands0 req.name m hmver r2).mp hr2cov
        obtain ⟨q2', hq2', hsei2⟩ := forall₂_mem_left (hsim req.name) q2 hq2
        have hq2'v : q2'.version = m := by rw [← hsei2.2.1]; exact hq2v
        have hq2'r : q2'.nixpkgs_rev = r2 := by rw [← hsei2.2.2]; exact hq2r
        obtain ⟨j2, hj2⟩ := mem_enumFromL_of_mem (cand req.name) q2' hq2' 0
        have hj2match : (j2, q2') ∈ (enumL (cand req.name)).filter
            (fun ip => decide (ip.2.version = m ∧ ip.2.nixpkgs_rev ∈ selected)) :=
          List.mem_filter.mpr ⟨hj2, by simp [hq2'v, hq2'r, hr2sel]⟩
        have := hpmax (j2, q2') hj2match
        rw [hq2'r] at this
        exact this
    refine ⟨⟨p.name, p.version, p.nixpkgs_rev, some lab⟩ :: res, c', ?_,
      hsim2, List.Forall₂.cons hok hfa⟩
    simp only [assignLoop, hget, hp, hlabeq, heq]

/-! ### The end-to-end specification of `select_optimal_packages` -/

theorem select_spec (requirements : List (Requirement V))
    (candidates : Candidates V)
    (h : ∀ req ∈ requirements, candidates req.name ≠ []) :
    ∃ sel res c',
      selectedRevsOf requirements candidates = .ok sel ∧
      select_optimal_packages requirements candidates = .ok (res, c') ∧
      sel.length ≤ requirements.length ∧
      (∀ req ∈ requirements, ∃ r ∈ sel, r ∈ coverageSet candidates req.name) ∧
      (∀ n, List.Forall₂ (sameExceptInput (V := V)) (candidates n) (c' n)) ∧
      List.Forall₂ (assignedOk candidates sel (revToInputOf sel))
        requirements res := by
  obtain ⟨mv, hmv⟩ := computeMaxVersions_ok candidates requirements h
  have hOr : ∀ n ∈ (requirements.map (·.name)).dedup,
      optimalRevsFor mv candidates n = coverageSet candidates n := by
    intro n hn
    exact optimalRevsFor_eq mv candidates n
      (cmv_dictGet candidates requirements mv hmv n (List.mem_dedup.mp hn))
  have hne : ∀ n ∈ (requirements.map (·.name)).dedup,
      optimalRevsFor mv candidates n ≠ [] := by
    intro n hn
    rw [hOr n hn]
    rcases List.mem_map.mp (List.mem_dedup.mp hn) with ⟨req, hreq, rfl⟩
    exact coverageSet_ne_nil candidates req.name (h req hreq)
  obtain ⟨hunc, hlen, hpres, hcover⟩ :=
    greedyLoop_spec (optimalRevsFor mv candidates)
      (requirements.map (·.name)).dedup.length
      (requirements.map (·.name)).dedup [] hne (le_refl _)
  set sel := (greedyLoop (optimalRevsFor mv candidates)
    (requirements.map (·.name)).dedup.length
    (requirements.map (·.name)).dedup []).1 with hseldef
  have hselrevs : selectedRevsOf requirements candidates = .ok sel := by
    simp only [selectedRevsOf, hmv]
  have hlen2 : sel.length ≤ requirements.length := by
    have hd : (requirements.map (·.name)).dedup.length ≤
        (requirements.map (·.name)).length :=
      (List.dedup_sublist _).length_le
    simp only [List.length_map] at hd
    simp only [List.length_nil, Nat.zero_add] at hlen
    omega
  have hcov2 : ∀ req ∈ requirements,
      ∃ r ∈ sel, r ∈ coverageSet candidates req.name := by
    intro req hreq
    have hnmem : req.name ∈ (requirements.map (·.name)).dedup :=
      List.mem_dedup.mpr (List.mem_map.mpr ⟨req, hreq, rfl⟩)
    obtain ⟨r, hr1, hr2⟩ := hcover req.name hnmem
    rw [hOr req.name hnmem] at hr2
    exact ⟨r, hr1, hr2⟩
  obtain ⟨res, c', hassign, hsim, hfa⟩ := assignLoop_spec mv sel
    (revToInputOf sel) candidates requirements candidates
    (fun n => forall₂_sei_refl _)
    (fun req hreq => cmv_dictGet candidates requirements mv hmv req.name
      (List.mem_map.mpr ⟨req, hreq, rfl⟩))
    hcov2
    h
    (fun r hr => revToInputOf_isSome sel r hr)
  refine ⟨sel, res, c', hselrevs, ?_, hlen2, hcov2, hsim, hfa⟩
  simp only [select_optimal_packages, hmv]
  exact hassign

/-! ### `get_all_candidates` when nothing satisfies the constraint -/

theorem maxVersions_fold_nil (rbn : List (String × Requirement V)) :
    ∀ l : List (String × V),
      (∀ pv ∈ l, ∀ r : Requirement V, dictGet rbn pv.1 = some r →
        r.specifier pv.2 = false) →
      l.foldl (fun mv pv =>
        match dictGet rbn pv.1 with
        | none => mv
        | some req =>
          if req.specifier pv.2 then
            match dictGet mv pv.1 with
            | none => dictInsert mv pv.1 pv.2
            | some cur => if cur < pv.2 then dictInsert mv pv.1 pv.2 else mv
          else mv) [] = [] := by
  intro l
  induction l with
  | nil => intro _; rfl
  | cons pv l ih =>
    intro h
    rw [List.foldl_cons]
    show List.foldl _ (match dictGet rbn pv.1 with
      | none => ([] : List (String × V))
      | some req =>
        if req.specifier pv.2 then
          match dictGet ([] : List (String × V)) pv.1 with
          | none => dictInsert [] pv.1 pv.2
          | some cur => if cur < pv.2 then dictInsert [] pv.1 pv.2 else []
        else []) l = []
    cases hr : dictGet rbn pv.1 with
    | none =>
      exact ih (fun x hx => h x (List.mem_cons_of_mem _ hx))
    | some req =>
      have hs := h pv (List.mem_cons_self _ _) req hr
      simp only [hs, Bool.false_eq_true, if_false]
      exact ih (fun x hx => h x (List.mem_cons_of_mem _ hx))

theorem get_all_candidates_single_unsat (req : Requirement V)
    (db : List (DbRow V))
    (h : ∀ row ∈ db, row.package = req.name →
      req.specifier row.version = false) :
    get_all_candidates [req] db = fun _ => [] := by
  simp only [get_all_candidates]
  have hrows : ∀ pv ∈ ((db.filter
        (fun r => decide (r.package ∈ ([req] : List (Requirement V)).map (·.name)))).map
        (fun r => (r.package, r.version))).dedup,
      ∀ r2 : Requirement V,
        dictGet (([req] : List (Requirement V)).foldl
          (fun d req => dictInsert d req.name req) []) pv.1 = some r2 →
        r2.specifier pv.2 = false := by
    intro pv hpv r2 hr2
    rcases List.mem_map.mp (List.mem_dedup.mp hpv) with ⟨row, hrowmem, rfl⟩
    rcases List.mem_filter.mp hrowmem with ⟨hrowdb, hrowpkg⟩
    have hpkg : row.package = req.name := by
      simpa using hrowpkg
    have hget : dictGet (([req] : List (Requirement V)).foldl
        (fun d req => dictInsert d req.name req) []) row.package = some req := by
      rw [hpkg]
      exact dictGet_insert_self [] req.name req
    rw [hget] at hr2
    obtain rfl := Option.some.inj hr2
    exact h row hrowdb hpkg
  rw [maxVersions_fold_nil _ _ hrows]
  rfl

/-! ### The assignment loop only rewrites `_input_name` fields -/

theorem assignLoop_sim (mv : List (String × V)) (selected : List NixpkgsRev)
    (rti : List (String × String)) (cands0 : Candidates V) :
    ∀ (reqs : List (Requirement V)) (cand : Candidates V)
      (res : List (Package V)) (c' : Candidates V),
      (∀ n, List.Forall₂ (sameExceptInput (V := V)) (cands0 n) (cand n)) →
      assignLoop mv selected rti reqs cand = .ok (res, c') →
      ∀ n, List.Forall₂ (sameExceptInput (V := V)) (cands0 n) (c' n) := by
  intro reqs
  induction reqs with
  | nil =>
    intro cand res c' hsim h
    simp only [assignLoop, Except.ok.injEq, Prod.mk.injEq] at h
    obtain ⟨_, rfl⟩ := h
    exact hsim
  | cons req rest ih =>
    intro cand res c' hsim h
    simp only [assignLoop] at h
    split at h
    · exact absurd h (by simp)
    · rename_i m hget
      split at h
      · exact absurd h (by simp)
      · rename_i ip i p hp
        split at h
        · exact absurd h (by simp)
        · rename_i lab hlab
          split at h
          · exact absurd h (by simp)
          · rename_i rc res2 c2 hrec
            simp only [Except.ok.injEq, Prod.mk.injEq] at h
            obtain ⟨_, rfl⟩ := h
            obtain ⟨hpmem, _⟩ := pyMaxByDate_spec _ (i, p) hp
            obtain ⟨hpenum, _⟩ := List.mem_filter.mp hpmem
            have hgetp : (cand req.name)[i]? = some p := by
              have := enumFromL_mem (cand req.name) 0 i p hpenum
              simpa using this.2
            have hsim' : ∀ n, List.Forall₂ (sameExceptInput (V := V)) (cands0 n)
                ((fun n => if n = req.name then
                  (cand req.name).set i ⟨p.name, p.version, p.nixpkgs_rev, some lab⟩
                else cand n) n) := by
              intro n
              by_cases hn : n = req.name
              · subst hn
                simp only [if_pos rfl]
                exact forall₂_sei_set i p _ (hsim req.name) hgetp ⟨rfl, rfl, rfl⟩
              · simp only [if_neg hn]
                exact hsim n
            exact ih _ res2 c2 hsim' hrec

/-! ### Concrete instances used by witnesses and counterexamples -/

def revA : NixpkgsRev := ⟨"abc123", "sha256-xxx", 1000⟩

def revB : NixpkgsRev := ⟨"def456", "sha256-yyy", 2000⟩

def reqPy3 : Requirement Nat := ⟨"python3", fun _ => true⟩

def reqNode : Requirement Nat := ⟨"nodejs", fun _ => true⟩

def candsPy3 : Candidates Nat := fun n =>
  if n = "python3" then [⟨"python3", 311, revA, none⟩] else []

def candsTwo : Candidates Nat := fun n =>
  if n = "python3" then
    [⟨"python3", 311, revA, none⟩, ⟨"python3", 311, revB, none⟩]
  else if n = "nodejs" then
    [⟨"nodejs", 20, revA, none⟩, ⟨"nodejs", 20, revB, none⟩]
  else []

def reqA5 : Requirement Nat := ⟨"a", fun v => decide (5 ≤ v)⟩

def dbLow : List (DbRow Nat) := [⟨"a", 1, revA⟩]

def revH1 : NixpkgsRev := ⟨"aaa", "hash1", 1⟩

def revH2 : NixpkgsRev := ⟨"aaa", "hash2", 2⟩

def orevsW : String → List NixpkgsRev := fun n =>
  if n = "python3" then [revA, revB]
  else if n = "nodejs" then [revB]
  else []

def uncoveredW : List String := ["python3", "nodejs"]

/-! ### The claims -/

/-- Claim C1: for every list of requirements and every candidates map giving
each requirement a non-empty candidate list, `select_optimal_packages`
succeeds and every returned package's version equals the semantic maximum of
the versions in that package's candidate list, and its revision is one of the
revisions carrying that maximum version. -/
theorem claim_C1 (requirements : List (Requirement V))
    (candidates : Candidates V)
    (h : ∀ req ∈ requirements, candidates req.name ≠ []) :
    ∃ res c', select_optimal_packages requirements candidates = .ok (res, c') ∧
      List.Forall₂ (fun (req : Requirement V) (p : Package V) =>
        p.version ∈ (candidates req.name).map (·.version) ∧
        (∀ q ∈ candidates req.name, q.version ≤ p.version) ∧
        ∃ q ∈ candidates req.name, q.version = p.version ∧
          q.nixpkgs_rev = p.nixpkgs_rev) requirements res := by
  obtain ⟨sel, res, c', _, hok, _, _, _, hfa⟩ :=
    select_spec requirements candidates h
  refine ⟨res, c', hok, List.Forall₂.imp ?_ hfa⟩
  intro req p hp
  obtain ⟨m, hm, hpv, _, ⟨q, hq, hqv, hqr⟩, _, _⟩ := hp
  have hm' : listMax ((candidates req.name).map (·.version)) = some m := hm
  obtain ⟨hmmem, hmle⟩ := listMax_spec _ m hm'
  refine ⟨?_, ?_, q, hq, ?_, hqr⟩
  · rw [hpv]; exact hmmem
  · intro q2 hq2
    rw [hpv]
    exact hmle _ (List.mem_map.mpr ⟨q2, hq2, rfl⟩)
  · rw [hpv]; exact hqv

/-- Witness for claim C1 at a concrete input. -/
theorem claim_C1_witness :
    (∀ req ∈ [reqPy3, reqNode], candsTwo req.name ≠ []) ∧
    (∃ res c',
      select_optimal_packages [reqPy3, reqNode] candsTwo = .ok (res, c') ∧
      List.Forall₂ (fun (req : Requirement Nat) (p : Package Nat) =>
        p.version ∈ (candsTwo req.name).map (·.version) ∧
        (∀ q ∈ candsTwo req.name, q.version ≤ p.version) ∧
        ∃ q ∈ candsTwo req.name, q.version = p.version ∧
          q.nixpkgs_rev = p.nixpkgs_rev) [reqPy3, reqNode] res) :=
  ⟨by decide, claim_C1 [reqPy3, reqNode] candsTwo (by decide)⟩

/-- Claim C2: whenever an iteration of the greedy set-cover loop appends a
revision, that revision comes from the coverage set of some still-uncovered
package, its recorded coverage is its true coverage, and it maximizes the
pair (number of uncovered packages covered, timestamp) lexicographically over
all candidate revisions covering at least one uncovered package. -/
theorem claim_C2 (orevs : String → List NixpkgsRev) (uncovered : List String)
    (r : NixpkgsRev) (cov : List String)
    (h : greedyStep orevs uncovered = some (r, cov)) :
    (∃ n ∈ uncovered, r ∈ orevs n) ∧
    cov = coverageOf orevs uncovered r ∧
    ∀ r2, (∃ n ∈ uncovered, r2 ∈ orevs n) →
      ((coverageOf orevs uncovered r2).length < cov.length ∨
        ((coverageOf orevs uncovered r2).length = cov.length ∧
          r2.date ≤ r.date)) := by
  obtain ⟨h1, h2, h3⟩ := greedyStep_spec orevs uncovered r cov h
  exact ⟨h2, h1, h3⟩

/-- Witness for claim C2 at a concrete input. -/
theorem claim_C2_witness :
    greedyStep orevsW uncoveredW = some (revB, ["python3", "nodejs"]) ∧
    ((∃ n ∈ uncoveredW, revB ∈ orevsW n) ∧
      ["python3", "nodejs"] = coverageOf orevsW uncoveredW revB ∧
      ∀ r2, (∃ n ∈ uncoveredW, r2 ∈ orevsW n) →
        ((coverageOf orevsW uncoveredW r2).length <
            (["python3", "nodejs"] : List String).length ∨
          ((coverageOf orevsW uncoveredW r2).length =
              (["python3", "nodejs"] : List String).length ∧
            r2.date ≤ revB.date))) :=
  ⟨by decide,
    claim_C2 orevsW uncoveredW revB ["python3", "nodejs"] (by decide)⟩

/-- Claim C3: the code performs no duplicate-requirement check.  With
`python3` required twice and a valid candidate available,
`select_optimal_packages` returns a two-element result instead of failing
with an error naming `python3` (the repository's own test
`test_raises_on_duplicate_package` expects
`ValueError("Duplicate package: python3")` here). -/
theorem claim_C3 :
    (select_optimal_packages [reqPy3, reqPy3] candsPy3).map Prod.fst =
      .ok [⟨"python3", 311, revA, some "nixpkgs-0"⟩,
        ⟨"python3", 311, revA, some "nixpkgs-0"⟩] := by
  rfl

/-- Counterexample to claim C4: a package name with zero observed candidates
and a package name whose candidates all fail the constraint produce the very
same `ValueError`, so the two no-result cases are not distinguishable by the
caller. -/
theorem claim_C4_counterexample :
    resolve [reqA5] ([] : List (DbRow Nat)) =
      .error ("Version not found for package a") ∧
    resolve [reqA5] dbLow = .error ("Version not found for package a") :=
  ⟨rfl, rfl⟩

/-- Claim C4 (amended): resolving a single requirement fails identically in
the two no-result cases: whether the package has zero observed rows or rows
exist but none satisfies the constraint, the pipeline raises the same
`ValueError("Version not found for package <name>")`; there is no distinct
`PackageNotFound` versus `NoMatchingVersion` signal. -/
theorem claim_C4 (req : Requirement V) (db : List (DbRow V))
    (h : ∀ row ∈ db, row.package = req.name →
      req.specifier row.version = false) :
    resolve [req] db =
      .error ("Version not found for package " ++ req.name) := by
  unfold resolve
  rw [get_all_candidates_single_unsat req db h]
  rfl

/-- Witness for claim C4 at a concrete input. -/
theorem claim_C4_witness :
    (∀ row ∈ dbLow, row.package = reqA5.name →
      reqA5.specifier row.version = false) ∧
    resolve [reqA5] dbLow =
      .error ("Version not found for package " ++ reqA5.name) :=
  ⟨by decide, claim_C4 reqA5 dbLow (by decide)⟩

/-- Claim C5: under the precondition that each requirement has a non-empty
candidate list, the number of revisions selected by the set-cover loop is at
most the number of requirements, and so is the number of distinct group
labels in the result. -/
theorem claim_C5 (requirements : List (Requirement V))
    (candidates : Candidates V)
    (h : ∀ req ∈ requirements, candidates req.name ≠ []) :
    ∃ sel res c',
      selectedRevsOf requirements candidates = .ok sel ∧
      select_optimal_packages requirements candidates = .ok (res, c') ∧
      sel.length ≤ requirements.length ∧
      ((res.map Package.inputName).dedup).length ≤ requirements.length := by
  obtain ⟨sel, res, c', hsel, hok, hlen, _, _, hfa⟩ :=
    select_spec requirements candidates h
  refine ⟨sel, res, c', hsel, hok, hlen, ?_⟩
  have hres : res.length = requirements.length := (List.Forall₂.length_eq hfa).symm
  have h1 : ((res.map Package.inputName).dedup).length ≤
      (res.map Package.inputName).length := (List.dedup_sublist _).length_le
  have h2 : (res.map Package.inputName).length = res.length := by simp
  omega

/-- Witness for claim C5 at a concrete input. -/
theorem claim_C5_witness :
    (∀ req ∈ [reqPy3, reqNode], candsTwo req.name ≠ []) ∧
    (∃ sel res c',
      selectedRevsOf [reqPy3, reqNode] candsTwo = .ok sel ∧
      select_optimal_packages [reqPy3, reqNode] candsTwo = .ok (res, c') ∧
      sel.length ≤ ([reqPy3, reqNode] : List (Requirement Nat)).length ∧
      ((res.map Package.inputName).dedup).length ≤
        ([reqPy3, reqNode] : List (Requirement Nat)).length) :=
  ⟨by decide, claim_C5 [reqPy3, reqNode] candsTwo (by decide)⟩

/-- Claim C6: if one revision carries the maximum candidate version of every
requested package, the set-cover loop selects exactly one revision, and every
package in the (non-empty) result is assigned that revision and carries its
group label `nixpkgs-0`. -/
theorem claim_C6 (requirements : List (Requirement V))
    (candidates : Candidates V) (r0 : NixpkgsRev)
    (hreqs : requirements ≠ [])
    (hall : ∀ req ∈ requirements, ∃ q ∈ candidates req.name,
      q.nixpkgs_rev = r0 ∧ ∀ q2 ∈ candidates req.name,
        q2.version ≤ q.version) :
    ∃ r res c', selectedRevsOf requirements candidates = .ok [r] ∧
      select_optimal_packages requirements candidates = .ok (res, c') ∧
      res ≠ [] ∧
      ∀ p ∈ res, p.nixpkgs_rev = r ∧ p.input_name_opt = some "nixpkgs-0" := by
  have h : ∀ req ∈ requirements, candidates req.name ≠ [] := by
    intro req hreq
    obtain ⟨q, hq, _⟩ := hall req hreq
    exact List.ne_nil_of_mem hq
  have hcov0 : ∀ req ∈ requirements, r0 ∈ coverageSet candidates req.name := by
    intro req hreq
    obtain ⟨q, hq, hqr, hqmax⟩ := hall req hreq
    have hne : (candidates req.name).map (·.version) ≠ [] := by
      simpa using h req hreq
    obtain ⟨m, hm⟩ := listMax_isSome _ hne
    obtain ⟨hmmem, hmle⟩ := listMax_spec _ m hm
    obtain ⟨q3, hq3, hq3v⟩ := List.mem_map.mp hmmem
    have hqvm : q.version = m :=
      le_antisymm (hmle _ (List.mem_map.mpr ⟨q, hq, rfl⟩))
        (hq3v ▸ hqmax q3 hq3)
    exact (mem_coverageSet candidates req.name m hm r0).mpr ⟨q, hq, hqvm, hqr⟩
  obtain ⟨mv, hmv⟩ := computeMaxVersions_ok candidates requirements h
  have hOr : ∀ n ∈ (requirements.map (·.name)).dedup,
      optimalRevsFor mv candidates n = coverageSet candidates n := by
    intro n hn
    exact optimalRevsFor_eq mv candidates n
      (cmv_dictGet candidates requirements mv hmv n (List.mem_dedup.mp hn))
  obtain ⟨req0, hreq0⟩ := List.exists_mem_of_ne_nil requirements hreqs
  have hund : (requirements.map (·.name)).dedup ≠ [] :=
    List.ne_nil_of_mem
      (List.mem_dedup.mpr (List.mem_map.mpr ⟨req0, hreq0, rfl⟩))
  have hr0all : ∀ n ∈ (requirements.map (·.name)).dedup,
      r0 ∈ optimalRevsFor mv candidates n := by
    intro n hn
    rw [hOr n hn]
    rcases List.mem_map.mp (List.mem_dedup.mp hn) with ⟨req, hreq, rfl⟩
    exact hcov0 req hreq
  obtain ⟨r, hloop, hrall⟩ := greedyLoop_single (optimalRevsFor mv candidates)
    (requirements.map (·.name)).dedup r0 hund hr0all
  have hselr : selectedRevsOf requirements candidates = .ok [r] := by
    simp only [selectedRevsOf, hmv, hloop]
  obtain ⟨sel, res, c', hsel2, hok, _, _, _, hfa⟩ :=
    select_spec requirements candidates h
  rw [hselr] at hsel2
  have hseleq : sel = [r] := (Except.ok.inj hsel2).symm
  subst hseleq
  have hresne : res ≠ [] := by
    have hlen : requirements.length = res.length := List.Forall₂.length_eq hfa
    intro hnil
    rw [hnil] at hlen
    simp at hlen
    exact hreqs hlen
  refine ⟨r, res, c', hselr, hok, hresne, ?_⟩
  intro p hp
  obtain ⟨req, hreq, hokp⟩ := forall₂_mem_right hfa p hp
  obtain ⟨m, _, _, hpsel, _, _, lab, hlabeq, hplab⟩ := hokp
  have hpr : p.nixpkgs_rev = r := by simpa using hpsel
  have hrti : dictGet (revToInputOf [r]) r.rev =
      some ("nixpkgs-" ++ toString (0 : Nat)) := by
    show dictGet (dictInsert [] r.rev ("nixpkgs-" ++ toString (0 : Nat))) r.rev
      = some ("nixpkgs-" ++ toString (0 : Nat))
    exact dictGet_insert_self [] r.rev _
  rw [hpr] at hlabeq
  rw [hrti] at hlabeq
  have hlabval : lab = "nixpkgs-0" := by
    have := Option.some.inj hlabeq
    rw [← this]
    decide
  refine ⟨hpr, ?_⟩
  rw [hplab, hlabval]

/-- Witness for claim C6 at a concrete input. -/
theorem claim_C6_witness :
    (([reqPy3, reqNode] : List (Requirement Nat)) ≠ []) ∧
    (∀ req ∈ [reqPy3, reqNode], ∃ q ∈ candsTwo req.name,
      q.nixpkgs_rev = revB ∧ ∀ q2 ∈ candsTwo req.name,
        q2.version ≤ q.version) ∧
    (∃ r res c', selectedRevsOf [reqPy3, reqNode] candsTwo = .ok [r] ∧
      select_optimal_packages [reqPy3, reqNode] candsTwo = .ok (res, c') ∧
      res ≠ [] ∧
      ∀ p ∈ res, p.nixpkgs_rev = r ∧ p.input_name_opt = some "nixpkgs-0") :=
  ⟨by simp, by decide,
    claim_C6 [reqPy3, reqNode] candsTwo revB (by simp) (by decide)⟩

/-- Claim C7: each returned package carries, among the selected revisions
that lie in its coverage set (revisions holding its maximum version), the one
with the newest timestamp. -/
theorem claim_C7 (requirements : List (Requirement V))
    (candidates : Candidates V)
    (h : ∀ req ∈ requirements, candidates req.name ≠ []) :
    ∃ sel res c',
      selectedRevsOf requirements candidates = .ok sel ∧
      select_optimal_packages requirements candidates = .ok (res, c') ∧
      List.Forall₂ (fun (req : Requirement V) (p : Package V) =>
        p.nixpkgs_rev ∈ sel ∧
        p.nixpkgs_rev ∈ coverageSet candidates req.name ∧
        ∀ r ∈ sel, r ∈ coverageSet candidates req.name →
          r.date ≤ p.nixpkgs_rev.date) requirements res := by
  obtain ⟨sel, res, c', hsel, hok, _, _, _, hfa⟩ :=
    select_spec requirements candidates h
  refine ⟨sel, res, c', hsel, hok, List.Forall₂.imp ?_ hfa⟩
  intro req p hp
  obtain ⟨m, hm, _, hpsel, ⟨q, hq, hqv, hqr⟩, hmax, _⟩ := hp
  exact ⟨hpsel,
    (mem_coverageSet candidates req.name m hm p.nixpkgs_rev).mpr
      ⟨q, hq, hqv, hqr⟩, hmax⟩

/-- Witness for claim C7 at a concrete input. -/
theorem claim_C7_witness :
    (∀ req ∈ [reqPy3, reqNode], candsTwo req.name ≠ []) ∧
    (∃ sel res c',
      selectedRevsOf [reqPy3, reqNode] candsTwo = .ok sel ∧
      select_optimal_packages [reqPy3, reqNode] candsTwo = .ok (res, c') ∧
      List.Forall₂ (fun (req : Requirement Nat) (p : Package Nat) =>
        p.nixpkgs_rev ∈ sel ∧
        p.nixpkgs_rev ∈ coverageSet candsTwo req.name ∧
        ∀ r ∈ sel, r ∈ coverageSet candsTwo req.name →
          r.date ≤ p.nixpkgs_rev.date) [reqPy3, reqNode] res) :=
  ⟨by decide, claim_C7 [reqPy3, reqNode] candsTwo (by decide)⟩

/-- Claim C8: under the precondition that every uncovered name's coverage set
is non-empty, the greedy loop terminates with every package covered (fuel
equal to the number of uncovered names suffices), and each iteration selects
a revision whose coverage is non-empty, so the uncovered set strictly
shrinks. -/
theorem claim_C8 (orevs : String → List NixpkgsRev) (uncovered : List String)
    (fuel : Nat) (selected : List NixpkgsRev)
    (hne : ∀ n ∈ uncovered, orevs n ≠ []) (hfuel : uncovered.length ≤ fuel) :
    (greedyLoop orevs fuel uncovered selected).2 = [] ∧
    (uncovered ≠ [] → ∃ r cov, greedyStep orevs uncovered = some (r, cov) ∧
      cov ≠ [] ∧
      (uncovered.filter (fun n => decide (n ∉ cov))).length <
        uncovered.length) := by
  refine ⟨(greedyLoop_spec orevs fuel uncovered selected hne hfuel).1, ?_⟩
  intro hu
  obtain ⟨n0, hn0⟩ := List.exists_mem_of_ne_nil uncovered hu
  obtain ⟨r0, hr0⟩ := List.exists_mem_of_ne_nil (orevs n0) (hne n0 hn0)
  obtain ⟨r, cov, hstep⟩ := greedyStep_isSome orevs uncovered n0 r0 hn0 hr0
  obtain ⟨hcov, ⟨n1, hn1, hrn1⟩, _⟩ := greedyStep_spec orevs uncovered r cov hstep
  have hn1cov : n1 ∈ cov := by
    rw [hcov]
    exact (coverageOf_mem orevs uncovered r n1).mpr ⟨hn1, hrn1⟩
  exact ⟨r, cov, hstep, List.ne_nil_of_mem hn1cov,
    filterLength_lt_of_mem_not _ uncovered n1 hn1 (by simp [hn1cov])⟩

/-- Witness for claim C8 at a concrete input. -/
theorem claim_C8_witness :
    (∀ n ∈ uncoveredW, orevsW n ≠ []) ∧ uncoveredW.length ≤ 2 ∧
    ((greedyLoop orevsW 2 uncoveredW []).2 = [] ∧
      (uncoveredW ≠ [] → ∃ r cov,
        greedyStep orevsW uncoveredW = some (r, cov) ∧ cov ≠ [] ∧
        (uncoveredW.filter (fun n => decide (n ∉ cov))).length <
          uncoveredW.length)) :=
  ⟨by decide, by decide, claim_C8 orevsW uncoveredW 2 [] (by decide) (by decide)⟩

/-- Counterexample to claim C9: two `NixpkgsRev` values with the same `rev`
identifier but different hashes and dates are not equal under the dataclass
equality, so equality does not hold whenever the identifiers match. -/
theorem claim_C9_counterexample :
    revH1.rev = revH2.rev ∧ NixpkgsRev.eqPy revH1 revH2 = false ∧
    revH1 ≠ revH2 := by
  decide

/-- Claim C9 (amended): two `NixpkgsRev` values are equal iff all three
fields `rev`, `hash` and `date` match (the frozen dataclass `__eq__` compares
every field; only the custom `__hash__` uses `rev` alone), and the `>`
ordering is by timestamp with the larger date greater. -/
theorem claim_C9 (a b : NixpkgsRev) :
    (NixpkgsRev.eqPy a b = true ↔
      a.rev = b.rev ∧ a.hash = b.hash ∧ a.date = b.date) ∧
    (NixpkgsRev.gtPy a b = true ↔ b.date < a.date) := by
  constructor
  · simp [NixpkgsRev.eqPy, and_assoc]
  · simp [NixpkgsRev.gtPy]

/-- Counterexample to claim C10: `select_optimal_packages` mutates a
`Package` object reachable from the input candidates map, setting its
`_input_name` from `None` to the group label `nixpkgs-0`. -/
theorem claim_C10_counterexample :
    (Except.toOption (select_optimal_packages [reqPy3] candsPy3)).map
      (fun rc => rc.2 "python3") =
      some [⟨"python3", 311, revA, some "nixpkgs-0"⟩] ∧
    candsPy3 "python3" = [⟨"python3", 311, revA, none⟩] ∧
    (Except.toOption (select_optimal_packages [reqPy3] candsPy3)).map
      (fun rc => rc.2 "python3") ≠ some (candsPy3 "python3") := by
  refine ⟨rfl, rfl, ?_⟩
  decide

/-- Claim C10 (amended): whenever `select_optimal_packages` returns normally,
no `NixpkgsRev` or `Requirement` is mutated and the only change to objects
reachable from the candidates map is the `_input_name` field of the chosen
`Package` objects: every package in the final candidates state agrees with
the original on `name`, `version` and `nixpkgs_rev`. -/
theorem claim_C10 (requirements : List (Requirement V))
    (candidates : Candidates V) (res : List (Package V)) (c' : Candidates V)
    (h : select_optimal_packages requirements candidates = .ok (res, c')) :
    ∀ n, List.Forall₂ (sameExceptInput (V := V)) (candidates n) (c' n) := by
  simp only [select_optimal_packages] at h
  split at h
  · exact absurd h (by simp)
  · rename_i mv hmv
    exact assignLoop_sim mv _ _ candidates requirements candidates res c'
      (fun n => forall₂_sei_refl _) h

/-- The concrete run backing the claim C10 witness. -/
def runC10 : Except String (List (Package Nat) × Candidates Nat) :=
  select_optimal_packages [reqPy3] candsPy3

/-- The result list of `runC10`. -/
def resC10 : List (Package Nat) :=
  match runC10 with
  | .ok rc => rc.1
  | .error _ => []

/-- The final candidates state of `runC10`. -/
def candsC10 : Candidates Nat :=
  match runC10 with
  | .ok rc => rc.2
  | .error _ => fun _ => []

/-- Witness for claim C10 at a concrete input. -/
theorem claim_C10_witness :
    select_optimal_packages [reqPy3] candsPy3 = .ok (resC10, candsC10) ∧
    List.Forall₂ (sameExceptInput (V := Nat)) (candsPy3 "python3")
      (candsC10 "python3") :=
  ⟨by rfl, claim_C10 [reqPy3] candsPy3 resC10 candsC10 (by rfl) "python3"⟩

end Wooper
